import Mathlib

/-
Shallow embedding of `src/project/sniffer.py`, a traffic-correlation pipeline:
burst-based event extraction, event-timing/size correlation, histogram-shape
correlation, and an OR-threshold decision.  Times and sizes are modelled by
exact rationals; Python runtime errors (ZeroDivisionError on an empty channel,
`max` of an empty sequence, IndexError on bin updates) are modelled by
`Option`, with `none` for a raised exception.
-/

namespace Sniffer

/-- A packet (or an aggregated event) is a pair of rational time and size. -/
abbrev Packet : Type := ℚ × ℚ

/-- Burst gap threshold, `TE = 0.5` in the source. -/
def TE : ℚ := 1 / 2

/-- Shape bin width, `TS = 0.01` in the source. -/
def TS : ℚ := 1 / 100

/-- Timing tolerance, `DELTA = 3` in the source. -/
def DELTA : ℚ := 3

/-- Size tolerance, `GAMMA = 10` in the source. -/
def GAMMA : ℚ := 10

/-- Detection threshold, `ETA = 0.9` in the source. -/
def ETA : ℚ := 9 / 10

/-- Python `int()` truncation toward zero, on an exact rational. -/
def pyInt (q : ℚ) : ℤ := if 0 ≤ q then ⌊q⌋ else ⌈q⌉

/-- `aggregate_event`: the time of the last packet of the burst
(`event_packets[-1][0]`) paired with the sum of the packet sizes.
In the source the burst is always non-empty, so the default is never used. -/
def aggregate_event (event_packets : List Packet) : Packet :=
  ((event_packets.getLastD (0, 0)).1, (event_packets.map Prod.snd).sum)

/-- The loop of `extract_events`: `current` is the open burst buffer (non-empty),
`prev` the previous packet of the traffic (always the last element of
`current`), and the third argument the remaining packets. -/
def extractAux (te : ℚ) : List Packet → Packet → List Packet → List Packet
  | current, _, [] => [aggregate_event current]
  | current, prev, p :: rest =>
    if p.1 - prev.1 < te then extractAux te (current ++ [p]) p rest
    else aggregate_event current :: extractAux te [p] p rest

/-- `extract_events`: split the traffic into bursts at gaps `≥ te` and aggregate
each burst into one event. -/
def extract_events (traffic : List Packet) (te : ℚ) : List Packet :=
  match traffic with
  | [] => []
  | p :: rest => extractAux te [p] p rest

/-- The inner loop of `calculate_event_correlation`: a channel event contributes
one match when some user event is within both tolerances (the `break` makes the
contribution at most one). -/
def matchesPred (user_events : List Packet) (delta gamma : ℚ) (ch : Packet) : Bool :=
  user_events.any fun ue => decide (|ch.1 - ue.1| ≤ delta ∧ |ch.2 - ue.2| ≤ gamma)

/-- `calculate_event_correlation`: fraction of channel events matched by some
user event; an empty channel raises ZeroDivisionError (`none`). -/
def calculate_event_correlation (user_events channel_events : List Packet)
    (delta gamma : ℚ) : Option ℚ :=
  match channel_events with
  | [] => none
  | _ :: _ =>
    some ((channel_events.countP (matchesPred user_events delta gamma) : ℚ) /
      (channel_events.length : ℚ))

/-- `max(event[0] for event in events)`; the source raises on an empty list,
handled at the caller, so the `0` default is never used. -/
def events_max_time (events : List Packet) : ℚ :=
  match events with
  | [] => 0
  | e :: rest => rest.foldl (fun m x => max m x.1) e.1

/-- The bin index `int(event[0] / ts)` of an event. -/
def binIndex (ts : ℚ) (e : Packet) : ℤ := pyInt (e.1 / ts)

/-- One iteration of the bin accumulation `bins[bin_index] += event[1]`, with
Python list-index semantics: a negative index wraps once from the end, and an
index out of range raises IndexError (`none`). -/
def addEvent (ts : ℚ) (bins : List ℚ) (e : Packet) : Option (List ℚ) :=
  let bi := binIndex ts e
  let j := if bi < 0 then bi + bins.length else bi
  if 0 ≤ j ∧ j < (bins.length : ℤ) then
    some (bins.set j.toNat (bins.getD j.toNat 0 + e.2))
  else none

/-- `normalize_traffic_shape`: allocate `int((max_time + ts) / ts)` zero bins
and add each event's size into bin `int(time / ts)`.  An empty event list
raises (`max` of an empty sequence). -/
def normalize_traffic_shape (events : List Packet) (ts : ℚ) : Option (List ℚ) :=
  match events with
  | [] => none
  | _ :: _ =>
    let max_time := events_max_time events + ts
    let bins : List ℚ := List.replicate (pyInt (max_time / ts)).toNat 0
    events.foldlM (addEvent ts) bins

/-- `n = min(len(user_shape), len(channel_shape))`. -/
def shape_n (u c : List ℚ) : ℕ := min u.length c.length

/-- The numerator `2 * sum(user_shape[i] * channel_shape[i] for i in range(n))`
(`zipWith` truncates to the overlapping prefix of length `n`). -/
def shape_num (u c : List ℚ) : ℚ := 2 * (List.zipWith (fun a b => a * b) u c).sum

/-- The denominator `sum(x**2 for x in user_shape[:n]) + sum(x**2 for x in
channel_shape[:n])`. -/
def shape_den (u c : List ℚ) : ℚ :=
  ((u.take (shape_n u c)).map (fun x => x ^ 2)).sum +
    ((c.take (shape_n u c)).map (fun x => x ^ 2)).sum

/-- `calculate_shape_correlation`: the normalized dot-product similarity; a zero
denominator raises ZeroDivisionError (`none`). -/
def calculate_shape_correlation (u c : List ℚ) : Option ℚ :=
  if shape_den u c = 0 then none else some (shape_num u c / shape_den u c)

/-- `identify_communicating_parties`: the full pipeline, `none` when any stage
raises, otherwise the OR-threshold verdict. -/
def identify_communicating_parties (user_traffic channel_traffic : List Packet) :
    Option Bool :=
  let user_events := extract_events user_traffic TE
  let channel_events := extract_events channel_traffic TE
  match calculate_event_correlation user_events channel_events DELTA GAMMA with
  | none => none
  | some event_correlation =>
    match normalize_traffic_shape user_events TS with
    | none => none
    | some user_shape =>
      match normalize_traffic_shape channel_events TS with
      | none => none
      | some channel_shape =>
        match calculate_shape_correlation user_shape channel_shape with
        | none => none
        | some shape_correlation =>
          if event_correlation > ETA ∨ shape_correlation > ETA then some true
          else some false

/-! ### Burst-partition analysis of `extract_events` -/

/-- The last element (with default) of a non-empty list is a member. -/
lemma getLastD_mem_of_ne_nil {α : Type} (l : List α) (d : α) (h : l ≠ []) :
    l.getLastD d ∈ l := by
  rw [List.getLastD_eq_getLast?, List.getLast?_eq_getLast l h, Option.getD_some]
  exact List.getLast_mem h

/-- Invariant of the `extract_events` loop: running the loop on `rest` with open
burst `current` (whose last packet is `prev`) yields the aggregates of a burst
partition of `current ++ rest`: the parts are non-empty, consecutive packets
inside a part are closer than `te`, consecutive parts are separated by at least
`te`, and the first part starts with the first packet of `current`. -/
lemma extractAux_partition (te : ℚ) (rest : List Packet) :
    ∀ (current : List Packet) (prev : Packet),
      current.getLast? = some prev →
      List.Chain' (fun p q : Packet => q.1 - p.1 < te) current →
      ∃ b0 B, extractAux te current prev rest = (b0 :: B).map aggregate_event ∧
        (b0 :: B).flatten = current ++ rest ∧
        (∀ b ∈ b0 :: B, b ≠ []) ∧
        (∀ b ∈ b0 :: B, List.Chain' (fun p q : Packet => q.1 - p.1 < te) b) ∧
        List.Chain' (fun b c : List Packet =>
          ∀ x ∈ b.getLast?, ∀ y ∈ c.head?, te ≤ y.1 - x.1) (b0 :: B) ∧
        b0.head? = current.head? := by
  induction rest with
  | nil =>
    intro current prev hlast hchain
    have hcur : current ≠ [] := by
      intro hc; rw [hc] at hlast; simp at hlast
    refine ⟨current, [], rfl, by simp, ?_, ?_, List.chain'_singleton _, rfl⟩
    · intro b hb; rw [List.mem_singleton] at hb; subst hb; exact hcur
    · intro b hb; rw [List.mem_singleton] at hb; subst hb; exact hchain
  | cons p rs ih =>
    intro current prev hlast hchain
    have hcur : current ≠ [] := by
      intro hc; rw [hc] at hlast; simp at hlast
    by_cases h : p.1 - prev.1 < te
    · have hlast' : (current ++ [p]).getLast? = some p := List.getLast?_concat _
      have hchain' : List.Chain' (fun p q : Packet => q.1 - p.1 < te) (current ++ [p]) := by
        rw [List.chain'_append]
        refine ⟨hchain, List.chain'_singleton _, ?_⟩
        intro x hx y hy
        rw [hlast, Option.mem_some_iff] at hx
        simp only [List.head?_cons, Option.mem_some_iff] at hy
        subst hx; subst hy; exact h
      obtain ⟨b0, B, heq, hflat, hne, hch, hbd, hhead⟩ := ih (current ++ [p]) p hlast' hchain'
      refine ⟨b0, B, ?_, ?_, hne, hch, hbd, ?_⟩
      · rw [extractAux, if_pos h]; exact heq
      · rw [hflat, List.append_assoc, List.singleton_append]
      · rw [hhead]
        cases current with
        | nil => exact absurd rfl hcur
        | cons a t => simp
    · obtain ⟨b0, B, heq, hflat, hne, hch, hbd, hhead⟩ :=
        ih [p] p rfl (List.chain'_singleton _)
      refine ⟨current, b0 :: B, ?_, ?_, ?_, ?_, ?_, rfl⟩
      · rw [extractAux, if_neg h, heq]; rfl
      · rw [List.flatten_cons, hflat, List.singleton_append]
      · intro b hb
        rcases List.mem_cons.1 hb with rfl | hb'
        · exact hcur
        · exact hne b hb'
      · intro b hb
        rcases List.mem_cons.1 hb with rfl | hb'
        · exact hchain
        · exact hch b hb'
      · rw [List.chain'_cons']
        refine ⟨?_, hbd⟩
        intro y hy
        intro x hx z hz
        rw [hlast, Option.mem_some_iff] at hx
        simp only [List.head?_cons, Option.mem_some_iff] at hy
        subst hx; subst hy
        rw [hhead] at hz
        simp only [List.head?_cons, Option.mem_some_iff] at hz
        subst hz
        exact le_of_not_lt h

/-- `extract_events` produces the aggregates of a burst partition of the
traffic: the parts concatenate back to the traffic, are non-empty, have
intra-part gaps `< te` and inter-part gaps `≥ te`. -/
lemma extract_events_partition (traffic : List Packet) (te : ℚ) :
    ∃ B : List (List Packet),
      extract_events traffic te = B.map aggregate_event ∧
      B.flatten = traffic ∧
      (∀ b ∈ B, b ≠ []) ∧
      (∀ b ∈ B, List.Chain' (fun p q : Packet => q.1 - p.1 < te) b) ∧
      List.Chain' (fun b c : List Packet =>
        ∀ x ∈ b.getLast?, ∀ y ∈ c.head?, te ≤ y.1 - x.1) B := by
  cases traffic with
  | nil => exact ⟨[], rfl, rfl, by simp, by simp, List.chain'_nil⟩
  | cons p rest =>
    obtain ⟨b0, B, heq, hflat, hne, hch, hbd, _⟩ :=
      extractAux_partition te rest [p] p rfl (List.chain'_singleton _)
    exact ⟨b0 :: B, heq, by simpa using hflat, hne, hch, hbd⟩

/-- C2: for every trace with non-decreasing timestamps and every `TE > 0`,
`extract_events` partitions the packets into maximal bursts — adjacent packets
inside a burst have gap strictly below `te`, adjacent bursts are separated by a
gap of at least `te` (so a gap equal to `te` starts a new burst, and the first
packet starts a burst) — and emits one event per burst whose time is the last
packet's time and whose size is the sum of the burst's sizes; the empty trace
yields no events (the partition is empty). -/
theorem extract_events_burst_partition (traffic : List Packet) (te : ℚ)
    (hsort : List.Chain' (fun p q : Packet => p.1 ≤ q.1) traffic) (hte : 0 < te) :
    ∃ B : List (List Packet),
      extract_events traffic te = B.map aggregate_event ∧
      B.flatten = traffic ∧
      (∀ b ∈ B, b ≠ []) ∧
      (∀ b ∈ B, List.Chain' (fun p q : Packet => q.1 - p.1 < te) b) ∧
      List.Chain' (fun b c : List Packet =>
        ∀ x ∈ b.getLast?, ∀ y ∈ c.head?, te ≤ y.1 - x.1) B ∧
      (∀ b ∈ B, aggregate_event b = ((b.getLastD (0, 0)).1, (b.map Prod.snd).sum)) := by
  obtain ⟨B, h1, h2, h3, h4, h5⟩ := extract_events_partition traffic te
  exact ⟨B, h1, h2, h3, h4, h5, fun b _ => rfl⟩

/-- Witness for C2 at the concrete trace `[(0, 1), (1, 2)]` with `te = 1/2`. -/
theorem extract_events_burst_partition_witness :
    ∃ B : List (List Packet),
      extract_events [((0 : ℚ), 1), (1, 2)] (1 / 2) = B.map aggregate_event ∧
      B.flatten = [((0 : ℚ), 1), (1, 2)] ∧
      (∀ b ∈ B, b ≠ []) ∧
      (∀ b ∈ B, List.Chain' (fun p q : Packet => q.1 - p.1 < 1 / 2) b) ∧
      List.Chain' (fun b c : List Packet =>
        ∀ x ∈ b.getLast?, ∀ y ∈ c.head?, 1 / 2 ≤ y.1 - x.1) B ∧
      (∀ b ∈ B, aggregate_event b = ((b.getLastD (0, 0)).1, (b.map Prod.snd).sum)) :=
  extract_events_burst_partition [((0 : ℚ), 1), (1, 2)] (1 / 2)
    (by norm_num [List.chain'_cons, List.chain'_singleton]) (by norm_num)

/-- C9: for every trace with non-decreasing timestamps and `te > 0`, the event
sequence returned by `extract_events` has non-decreasing event times. -/
theorem extract_events_time_ascending (traffic : List Packet) (te : ℚ)
    (hsort : List.Chain' (fun p q : Packet => p.1 ≤ q.1) traffic) (hte : 0 < te) :
    List.Chain' (fun e f : Packet => e.1 ≤ f.1) (extract_events traffic te) := by
  obtain ⟨B, h1, h2, h3, _, _⟩ := extract_events_partition traffic te
  rw [h1, List.chain'_map]
  haveI : IsTrans Packet (fun p q : Packet => p.1 ≤ q.1) :=
    ⟨fun _ _ _ hab hbc => le_trans hab hbc⟩
  have hpw : List.Pairwise (fun p q : Packet => p.1 ≤ q.1) traffic :=
    List.chain'_iff_pairwise.1 hsort
  rw [← h2, List.pairwise_flatten] at hpw
  obtain ⟨-, hbet⟩ := hpw
  refine List.Pairwise.chain' (hbet.imp_of_mem ?_)
  intro b c hb hc hxy
  have hbm := getLastD_mem_of_ne_nil b ((0 : ℚ), (0 : ℚ)) (h3 b hb)
  have hcm := getLastD_mem_of_ne_nil c ((0 : ℚ), (0 : ℚ)) (h3 c hc)
  simpa [aggregate_event] using hxy _ hbm _ hcm

/-- Witness for C9 at the concrete trace `[(0, 1), (1, 2)]` with `te = 1/2`. -/
theorem extract_events_time_ascending_witness :
    List.Chain' (fun e f : Packet => e.1 ≤ f.1)
      (extract_events [((0 : ℚ), 1), (1, 2)] (1 / 2)) :=
  extract_events_time_ascending [((0 : ℚ), 1), (1, 2)] (1 / 2)
    (by norm_num [List.chain'_cons, List.chain'_singleton]) (by norm_num)

/-- C4 (code evaluation): on an empty channel event sequence the source divides
`matches` by `len(channel_events) = 0` and raises ZeroDivisionError (modelled by
`none`); it does not return the fallback score `0` the spec requires. -/
theorem calculate_event_correlation_empty_channel (user_events : List Packet)
    (delta gamma : ℚ) :
    calculate_event_correlation user_events [] delta gamma = none := rfl

/-- C1: whenever every pipeline stage is defined (no raised exception), the
verdict is `true` exactly when the event-based score or the shape-based score
strictly exceeds `ETA`, and `false` otherwise. -/
theorem identify_verdict_iff (u c : List Packet) (ec : ℚ) (us cs : List ℚ) (sc : ℚ)
    (h1 : calculate_event_correlation (extract_events u TE) (extract_events c TE)
      DELTA GAMMA = some ec)
    (h2 : normalize_traffic_shape (extract_events u TE) TS = some us)
    (h3 : normalize_traffic_shape (extract_events c TE) TS = some cs)
    (h4 : calculate_shape_correlation us cs = some sc) :
    (identify_communicating_parties u c = some true ↔ (ec > ETA ∨ sc > ETA)) ∧
    (identify_communicating_parties u c = some false ↔ ¬(ec > ETA ∨ sc > ETA)) := by
  have key : identify_communicating_parties u c =
      if ec > ETA ∨ sc > ETA then some true else some false := by
    unfold identify_communicating_parties
    dsimp only
    rw [h1, h2, h3]
    dsimp only
    rw [h4]
  constructor
  · rw [key]; split_ifs with hcond <;> simp [hcond]
  · rw [key]; split_ifs with hcond <;> simp [hcond]

/-- Witness for C1 on the identical one-packet traces `[(0, 5)]`, where both
scores evaluate to `1`. -/
theorem identify_verdict_iff_witness :
    (identify_communicating_parties [((0 : ℚ), 5)] [((0 : ℚ), 5)] = some true ↔
      ((1 : ℚ) > ETA ∨ (1 : ℚ) > ETA)) ∧
    (identify_communicating_parties [((0 : ℚ), 5)] [((0 : ℚ), 5)] = some false ↔
      ¬((1 : ℚ) > ETA ∨ (1 : ℚ) > ETA)) :=
  identify_verdict_iff [((0 : ℚ), 5)] [((0 : ℚ), 5)] 1 [5] [5] 1
    (by norm_num [extract_events, extractAux, aggregate_event,
      calculate_event_correlation, matchesPred, List.countP, List.countP.go,
      TE, DELTA, GAMMA])
    (by norm_num [extract_events, extractAux, aggregate_event,
      normalize_traffic_shape, events_max_time, addEvent, binIndex, pyInt,
      List.foldlM, TE, TS])
    (by norm_num [extract_events, extractAux, aggregate_event,
      normalize_traffic_shape, events_max_time, addEvent, binIndex, pyInt,
      List.foldlM, TE, TS])
    (by norm_num [calculate_shape_correlation, shape_num, shape_den, shape_n])

/-- C8: with the channel non-empty, enlarging the timing and size tolerances
never decreases the event-correlation score. -/
theorem event_correlation_monotone (user_events channel_events : List Packet)
    (delta delta' gamma gamma' : ℚ)
    (hd0 : 0 ≤ delta) (hd : delta ≤ delta') (hg0 : 0 ≤ gamma) (hg : gamma ≤ gamma')
    (s s' : ℚ)
    (hs : calculate_event_correlation user_events channel_events delta gamma = some s)
    (hs' : calculate_event_correlation user_events channel_events delta' gamma' = some s') :
    s ≤ s' := by
  cases channel_events with
  | nil => simp [calculate_event_correlation] at hs
  | cons ch chs =>
    simp only [calculate_event_correlation, Option.some.injEq] at hs hs'
    subst hs; subst hs'
    have hcount : (ch :: chs).countP (matchesPred user_events delta gamma) ≤
        (ch :: chs).countP (matchesPred user_events delta' gamma') := by
      refine List.countP_mono_left ?_
      intro x _ hx
      simp only [matchesPred, List.any_eq_true, decide_eq_true_eq] at hx ⊢
      obtain ⟨ue, hue, ht, hsz⟩ := hx
      exact ⟨ue, hue, le_trans ht hd, le_trans hsz hg⟩
    refine div_le_div_of_nonneg_right ?_ ?_
    · exact_mod_cast hcount
    · positivity

/-- Witness for C8 at `user = channel = [(0, 0)]`, tolerances `0 ≤ 1`. -/
theorem event_correlation_monotone_witness : (1 : ℚ) ≤ 1 :=
  event_correlation_monotone [((0 : ℚ), 0)] [((0 : ℚ), 0)] 0 1 0 1
    le_rfl (by norm_num) le_rfl (by norm_num) 1 1
    (by norm_num [calculate_event_correlation, matchesPred, List.countP,
      List.countP.go])
    (by norm_num [calculate_event_correlation, matchesPred, List.countP,
      List.countP.go])

/-! ### Algebra of the shape correlation -/

lemma shape_n_cons (a b : ℚ) (u c : List ℚ) :
    shape_n (a :: u) (b :: c) = shape_n u c + 1 := by
  simp [shape_n, Nat.succ_min_succ]

lemma shape_num_nil_left (c : List ℚ) : shape_num [] c = 0 := by simp [shape_num]

lemma shape_num_nil_right (u : List ℚ) : shape_num u [] = 0 := by
  simp [shape_num]

lemma shape_num_cons (a b : ℚ) (u c : List ℚ) :
    shape_num (a :: u) (b :: c) = 2 * (a * b) + shape_num u c := by
  simp only [shape_num, List.zipWith_cons_cons, List.sum_cons]; ring

lemma shape_den_nil_left (c : List ℚ) : shape_den [] c = 0 := by
  simp [shape_den, shape_n]

lemma shape_den_nil_right (u : List ℚ) : shape_den u [] = 0 := by
  simp [shape_den, shape_n]

lemma shape_den_cons (a b : ℚ) (u c : List ℚ) :
    shape_den (a :: u) (b :: c) = a ^ 2 + b ^ 2 + shape_den u c := by
  simp only [shape_den, shape_n_cons, List.take_succ_cons, List.map_cons,
    List.sum_cons]
  ring

lemma shape_den_sub_num (u : List ℚ) : ∀ c : List ℚ,
    shape_den u c - shape_num u c =
      (List.zipWith (fun a b => (a - b) ^ 2) u c).sum := by
  induction u with
  | nil => intro c; simp [shape_den_nil_left, shape_num_nil_left]
  | cons a u ih =>
    intro c
    cases c with
    | nil => simp [shape_den_nil_right, shape_num_nil_right]
    | cons b c =>
      simp only [shape_den_cons, shape_num_cons, List.zipWith_cons_cons,
        List.sum_cons, ← ih c]
      ring

lemma sqdiff_sum_nonneg (u : List ℚ) : ∀ c : List ℚ,
    0 ≤ (List.zipWith (fun a b => (a - b) ^ 2) u c).sum := by
  induction u with
  | nil => intro c; simp
  | cons a u ih =>
    intro c
    cases c with
    | nil => simp
    | cons b c =>
      simp only [List.zipWith_cons_cons, List.sum_cons]
      exact add_nonneg (sq_nonneg _) (ih c)

lemma shape_num_nonneg (u : List ℚ) : ∀ c : List ℚ,
    (∀ x ∈ u, 0 ≤ x) → (∀ x ∈ c, 0 ≤ x) → 0 ≤ shape_num u c := by
  induction u with
  | nil => intro c _ _; simp [shape_num_nil_left]
  | cons a u ih =>
    intro c hu hc
    cases c with
    | nil => simp [shape_num_nil_right]
    | cons b c =>
      rw [shape_num_cons]
      have ha : 0 ≤ a := hu a (List.mem_cons_self a u)
      have hb : 0 ≤ b := hc b (List.mem_cons_self b c)
      have hrec := ih c (fun x hx => hu x (List.mem_cons_of_mem _ hx))
        (fun x hx => hc x (List.mem_cons_of_mem _ hx))
      nlinarith

lemma sqdiff_sum_eq_zero_iff (u : List ℚ) : ∀ c : List ℚ,
    ((List.zipWith (fun a b => (a - b) ^ 2) u c).sum = 0 ↔
      u.take (shape_n u c) = c.take (shape_n u c)) := by
  induction u with
  | nil => intro c; simp [shape_n]
  | cons a u ih =>
    intro c
    cases c with
    | nil => simp [shape_n]
    | cons b c =>
      simp only [List.zipWith_cons_cons, List.sum_cons, shape_n_cons,
        List.take_succ_cons, List.cons.injEq]
      rw [add_eq_zero_iff_of_nonneg (sq_nonneg _) (sqdiff_sum_nonneg u c),
        pow_eq_zero_iff (two_ne_zero), sub_eq_zero]
      exact and_congr Iff.rfl (ih c)

lemma shape_den_nonneg (u c : List ℚ) : 0 ≤ shape_den u c := by
  refine add_nonneg (List.sum_nonneg ?_) (List.sum_nonneg ?_) <;>
    · intro x hx
      obtain ⟨y, -, rfl⟩ := List.mem_map.1 hx
      exact sq_nonneg y

/-- C3: with non-negative entries and a non-zero denominator, the shape
correlation is defined, lies in `[0, 1]`, equals `1` exactly when the two
shapes agree on the overlapping prefix of length `min(len u, len c)` and that
prefix is non-zero, and equals `0` exactly when the prefix dot product
vanishes. -/
theorem calculate_shape_correlation_spec (u c : List ℚ)
    (hu : ∀ x ∈ u, 0 ≤ x) (hc : ∀ x ∈ c, 0 ≤ x) (hden : shape_den u c ≠ 0) :
    ∃ s, calculate_shape_correlation u c = some s ∧ 0 ≤ s ∧ s ≤ 1 ∧
      (s = 1 ↔ (u.take (shape_n u c) = c.take (shape_n u c) ∧
        ∃ x ∈ u.take (shape_n u c), x ≠ 0)) ∧
      (s = 0 ↔ (List.zipWith (fun a b => a * b) u c).sum = 0) := by
  have hdpos : 0 < shape_den u c := (shape_den_nonneg u c).lt_of_ne (Ne.symm hden)
  have hnum : 0 ≤ shape_num u c := shape_num_nonneg u c hu hc
  have hsub := shape_den_sub_num u c
  have hsq := sqdiff_sum_nonneg u c
  refine ⟨shape_num u c / shape_den u c, ?_, ?_, ?_, ?_, ?_⟩
  · simp [calculate_shape_correlation, hden]
  · exact div_nonneg hnum hdpos.le
  · rw [div_le_one hdpos]; linarith
  · rw [div_eq_one_iff_eq hden]
    constructor
    · intro he
      have hS : (List.zipWith (fun a b => (a - b) ^ 2) u c).sum = 0 := by
        rw [← hsub, he, sub_self]
      have htake := (sqdiff_sum_eq_zero_iff u c).1 hS
      refine ⟨htake, ?_⟩
      by_contra hall
      push_neg at hall
      apply hden
      have hc0 : ∀ x ∈ c.take (shape_n u c), x = 0 := fun x hx =>
        hall x (htake ▸ hx)
      have hzu : ((u.take (shape_n u c)).map (fun x => x ^ 2)).sum = 0 := by
        refine List.sum_eq_zero ?_
        intro y hy
        obtain ⟨x, hx, rfl⟩ := List.mem_map.1 hy
        rw [hall x hx]; ring
      have hzc : ((c.take (shape_n u c)).map (fun x => x ^ 2)).sum = 0 := by
        refine List.sum_eq_zero ?_
        intro y hy
        obtain ⟨x, hx, rfl⟩ := List.mem_map.1 hy
        rw [hc0 x hx]; ring
      rw [shape_den, hzu, hzc, add_zero]
    · rintro ⟨htake, -⟩
      have hS : (List.zipWith (fun a b => (a - b) ^ 2) u c).sum = 0 :=
        (sqdiff_sum_eq_zero_iff u c).2 htake
      linarith
  · rw [div_eq_zero_iff]
    constructor
    · rintro (h | h)
      · rw [shape_num] at h; linarith
      · exact absurd h hden
    · intro h
      left
      rw [shape_num, h, mul_zero]

/-- Witness for C3 at the identical one-bin shapes `[1]` and `[1]`, whose
correlation is `1`. -/
theorem calculate_shape_correlation_spec_witness :
    ∃ s, calculate_shape_correlation [(1 : ℚ)] [(1 : ℚ)] = some s ∧
      0 ≤ s ∧ s ≤ 1 ∧
      (s = 1 ↔ ([(1 : ℚ)].take (shape_n [(1 : ℚ)] [(1 : ℚ)]) =
          [(1 : ℚ)].take (shape_n [(1 : ℚ)] [(1 : ℚ)]) ∧
        ∃ x ∈ [(1 : ℚ)].take (shape_n [(1 : ℚ)] [(1 : ℚ)]), x ≠ 0)) ∧
      (s = 0 ↔ (List.zipWith (fun a b => a * b) [(1 : ℚ)] [(1 : ℚ)]).sum = 0) :=
  calculate_shape_correlation_spec [(1 : ℚ)] [(1 : ℚ)]
    (by intro x hx; rw [List.mem_singleton] at hx; simp [hx])
    (by intro x hx; rw [List.mem_singleton] at hx; simp [hx])
    (by norm_num [shape_den, shape_n])

/-! ### Analysis of `normalize_traffic_shape` -/

lemma le_foldl_max (l : List Packet) : ∀ init : ℚ,
    init ≤ l.foldl (fun m x => max m x.1) init ∧
    ∀ e ∈ l, e.1 ≤ l.foldl (fun m x => max m x.1) init := by
  induction l with
  | nil => intro init; exact ⟨le_refl _, by simp⟩
  | cons p t ih =>
    intro init
    obtain ⟨h1, h2⟩ := ih (max init p.1)
    simp only [List.foldl_cons]
    refine ⟨le_trans (le_max_left _ _) h1, ?_⟩
    intro e he
    rcases List.mem_cons.1 he with rfl | he'
    · exact le_trans (le_max_right _ _) h1
    · exact h2 e he'

lemma le_events_max_time (events : List Packet) (e : Packet) (he : e ∈ events) :
    e.1 ≤ events_max_time events := by
  cases events with
  | nil => simp at he
  | cons e0 t =>
    simp only [events_max_time]
    rcases List.mem_cons.1 he with rfl | he'
    · exact (le_foldl_max t e.1).1
    · exact (le_foldl_max t e0.1).2 e he'

lemma events_max_time_nonneg (events : List Packet) (hne : events ≠ [])
    (hnn : ∀ e ∈ events, 0 ≤ e.1) : 0 ≤ events_max_time events := by
  cases events with
  | nil => exact absurd rfl hne
  | cons e0 t =>
    exact le_trans (hnn e0 (List.mem_cons_self e0 t))
      (le_events_max_time (e0 :: t) e0 (List.mem_cons_self e0 t))

lemma pyInt_of_nonneg (q : ℚ) (h : 0 ≤ q) : pyInt q = ⌊q⌋ := if_pos h

/-- With exact arithmetic, non-negative event times and positive bin width,
every computed bin index is non-negative and below the allocated count. -/
lemma binIndex_bounds (events : List Packet) (ts : ℚ) (hts : 0 < ts)
    (hnn : ∀ e ∈ events, 0 ≤ e.1) :
    ∀ e ∈ events, 0 ≤ binIndex ts e ∧
      binIndex ts e < ⌊(events_max_time events + ts) / ts⌋ := by
  intro e he
  have h0 : 0 ≤ e.1 := hnn e he
  have hdiv : 0 ≤ e.1 / ts := div_nonneg h0 hts.le
  have hb : binIndex ts e = ⌊e.1 / ts⌋ := pyInt_of_nonneg _ hdiv
  refine ⟨hb ▸ Int.floor_nonneg.2 hdiv, ?_⟩
  have h1 : e.1 / ts ≤ events_max_time events / ts :=
    div_le_div_of_nonneg_right (le_events_max_time events e he) hts.le
  have heq : (events_max_time events + ts) / ts = events_max_time events / ts + 1 := by
    field_simp
  rw [hb, heq, Int.floor_add_one, Int.lt_add_one_iff]
  exact Int.floor_le_floor h1

lemma getD_replicate_zero (n i : ℕ) : (List.replicate n (0 : ℚ)).getD i 0 = 0 := by
  rw [List.getD_eq_getElem?_getD, List.getElem?_replicate]
  split <;> rfl

lemma getD_set_self (l : List ℚ) (n : ℕ) (hn : n < l.length) (v : ℚ) :
    (l.set n v).getD n 0 = v := by
  rw [List.getD_eq_getElem?_getD, List.getElem?_set_self hn]; rfl

lemma getD_set_ne (l : List ℚ) (n m : ℕ) (hnm : n ≠ m) (v : ℚ) :
    (l.set n v).getD m 0 = l.getD m 0 := by
  rw [List.getD_eq_getElem?_getD, List.getElem?_set_ne hnm,
    ← List.getD_eq_getElem?_getD]

lemma sum_set_getD (x : ℚ) : ∀ (l : List ℚ) (n : ℕ), n < l.length →
    (l.set n (l.getD n 0 + x)).sum = l.sum + x := by
  intro l
  induction l with
  | nil => intro n h; simp at h
  | cons a t ih =>
    intro n h
    cases n with
    | zero => simp only [List.set, List.getD_cons_zero, List.sum_cons]; ring
    | succ m =>
      have hm : m < t.length := by simpa using h
      simp only [List.set, List.getD_cons_succ, List.sum_cons]
      rw [ih m hm]; ring

/-- Correctness of the bin-accumulation loop: when every bin index is in
range, the fold succeeds, preserves the length, adds into each bin the total
size of the events that map to it, and adds the total size to the sum. -/
lemma foldlM_addEvent_spec (ts : ℚ) :
    ∀ (events : List Packet) (bins : List ℚ),
      (∀ e ∈ events, 0 ≤ binIndex ts e ∧ binIndex ts e < (bins.length : ℤ)) →
      ∃ r, List.foldlM (addEvent ts) bins events = some r ∧
        r.length = bins.length ∧
        (∀ i : ℕ, r.getD i 0 = bins.getD i 0 +
          ((events.filter (fun e => binIndex ts e = (i : ℤ))).map Prod.snd).sum) ∧
        r.sum = bins.sum + (events.map Prod.snd).sum := by
  intro events
  induction events with
  | nil => intro bins _; exact ⟨bins, rfl, rfl, by simp, by simp⟩
  | cons e es ih =>
    intro bins h
    obtain ⟨hb0, hblt⟩ := h e (List.mem_cons_self e es)
    have hjneg : ¬ binIndex ts e < 0 := not_lt.2 hb0
    have hlen : (binIndex ts e).toNat < bins.length := (Int.toNat_lt hb0).2 hblt
    have haddE : addEvent ts bins e = some (bins.set (binIndex ts e).toNat
        (bins.getD (binIndex ts e).toNat 0 + e.2)) := by
      unfold addEvent
      dsimp only
      rw [if_neg hjneg, if_pos ⟨hb0, hblt⟩]
    have hlen' : (bins.set (binIndex ts e).toNat
        (bins.getD (binIndex ts e).toNat 0 + e.2)).length = bins.length :=
      List.length_set ..
    have hidx' : ∀ e' ∈ es, 0 ≤ binIndex ts e' ∧ binIndex ts e' <
        ((bins.set (binIndex ts e).toNat
          (bins.getD (binIndex ts e).toNat 0 + e.2)).length : ℤ) := by
      intro e' he'
      have := h e' (List.mem_cons_of_mem _ he')
      rwa [hlen']
    obtain ⟨r, hr, hrlen, hrget, hrsum⟩ := ih _ hidx'
    refine ⟨r, ?_, ?_, ?_, ?_⟩
    · rw [List.foldlM_cons, haddE]
      simpa using hr
    · rw [hrlen, hlen']
    · intro i
      rw [hrget i]
      by_cases hie : binIndex ts e = (i : ℤ)
      · have hieq : (binIndex ts e).toNat = i := by omega
        have hfil : (e :: es).filter (fun e' => binIndex ts e' = (i : ℤ)) =
            e :: es.filter (fun e' => binIndex ts e' = (i : ℤ)) :=
          List.filter_cons_of_pos (by simp [hie])
        rw [hfil, List.map_cons, List.sum_cons, ← hieq,
          getD_set_self bins _ hlen]
        ring
      · have hne' : (binIndex ts e).toNat ≠ i := by omega
        have hfil : (e :: es).filter (fun e' => binIndex ts e' = (i : ℤ)) =
            es.filter (fun e' => binIndex ts e' = (i : ℤ)) :=
          List.filter_cons_of_neg (by simp [hie])
        rw [hfil, getD_set_ne bins _ _ hne']
    · rw [hrsum, sum_set_getD e.2 bins _ hlen, List.map_cons, List.sum_cons]
      ring

/-- Full evaluation of `normalize_traffic_shape` on a non-empty event list with
non-negative times and positive bin width: it succeeds, the length is
`⌊(max_time + ts) / ts⌋`, bin `i` holds the total size of the events with bin
index `i`, and the bins sum to the total event size. -/
lemma normalize_traffic_shape_eval (events : List Packet) (ts : ℚ)
    (hne : events ≠ []) (hts : 0 < ts) (hnn : ∀ e ∈ events, 0 ≤ e.1) :
    ∃ r, normalize_traffic_shape events ts = some r ∧
      (r.length : ℤ) = ⌊(events_max_time events + ts) / ts⌋ ∧
      (∀ i : ℕ, r.getD i 0 =
        ((events.filter (fun e => binIndex ts e = (i : ℤ))).map Prod.snd).sum) ∧
      r.sum = (events.map Prod.snd).sum := by
  have hmax : 0 ≤ events_max_time events := events_max_time_nonneg events hne hnn
  have hdivnn : 0 ≤ (events_max_time events + ts) / ts :=
    div_nonneg (by linarith) hts.le
  have hpy : pyInt ((events_max_time events + ts) / ts) =
      ⌊(events_max_time events + ts) / ts⌋ := pyInt_of_nonneg _ hdivnn
  have hfl0 : 0 ≤ ⌊(events_max_time events + ts) / ts⌋ := Int.floor_nonneg.2 hdivnn
  have hNcast : (((pyInt ((events_max_time events + ts) / ts)).toNat : ℕ) : ℤ) =
      ⌊(events_max_time events + ts) / ts⌋ := by
    rw [hpy]; exact Int.toNat_of_nonneg hfl0
  have hbounds := binIndex_bounds events ts hts hnn
  have hidx : ∀ e ∈ events, 0 ≤ binIndex ts e ∧ binIndex ts e <
      ((List.replicate (pyInt ((events_max_time events + ts) / ts)).toNat
        (0 : ℚ)).length : ℤ) := by
    intro e he
    obtain ⟨h1, h2⟩ := hbounds e he
    refine ⟨h1, ?_⟩
    rw [List.length_replicate, hNcast]
    exact h2
  obtain ⟨r, hr, hrlen, hrget, hrsum⟩ := foldlM_addEvent_spec ts events _ hidx
  obtain ⟨e0, es, rfl⟩ := List.exists_cons_of_ne_nil hne
  refine ⟨r, ?_, ?_, ?_, ?_⟩
  · simp only [normalize_traffic_shape]
    exact hr
  · rw [hrlen, List.length_replicate, hNcast]
  · intro i
    rw [hrget i, getD_replicate_zero, zero_add]
  · rw [hrsum, List.sum_replicate, smul_zero, zero_add]

/-- C10: under exact rational arithmetic, non-negative event times and positive
bin width, every bin index `int(time / ts)` is non-negative and strictly below
the allocated bin count `int((max_time + ts) / ts) = ⌊(max_time + ts) / ts⌋`,
so the accumulation never indexes out of bounds and the shape is computed
without error. -/
theorem normalize_bin_indices_in_range (events : List Packet) (ts : ℚ)
    (hne : events ≠ []) (hts : 0 < ts) (hnn : ∀ e ∈ events, 0 ≤ e.1) :
    (∀ e ∈ events, 0 ≤ binIndex ts e ∧
      binIndex ts e < pyInt ((events_max_time events + ts) / ts)) ∧
    pyInt ((events_max_time events + ts) / ts) =
      ⌊(events_max_time events + ts) / ts⌋ ∧
    (normalize_traffic_shape events ts).isSome = true := by
  have hmax : 0 ≤ events_max_time events := events_max_time_nonneg events hne hnn
  have hpy : pyInt ((events_max_time events + ts) / ts) =
      ⌊(events_max_time events + ts) / ts⌋ :=
    pyInt_of_nonneg _ (div_nonneg (by linarith) hts.le)
  refine ⟨?_, hpy, ?_⟩
  · intro e he
    rw [hpy]
    exact binIndex_bounds events ts hts hnn e he
  · obtain ⟨r, hr, -, -, -⟩ := normalize_traffic_shape_eval events ts hne hts hnn
    rw [hr]; rfl

/-- Witness for C10 at `events = [(0, 1)]`, `ts = 1`. -/
theorem normalize_bin_indices_in_range_witness :
    (∀ e ∈ [((0 : ℚ), 1)], 0 ≤ binIndex 1 e ∧
      binIndex 1 e < pyInt ((events_max_time [((0 : ℚ), 1)] + 1) / 1)) ∧
    pyInt ((events_max_time [((0 : ℚ), 1)] + 1) / 1) =
      ⌊(events_max_time [((0 : ℚ), 1)] + 1) / 1⌋ ∧
    (normalize_traffic_shape [((0 : ℚ), 1)] 1).isSome = true :=
  normalize_bin_indices_in_range [((0 : ℚ), 1)] 1 (by simp) (by norm_num)
    (by intro e he; rw [List.mem_singleton] at he; simp [he])

/-- C5 counterexample: at the single event `(0.015, 5)` with bin width
`ts = 0.01`, the code allocates `int(2.5) = 2` bins while the claimed ceiling
formula gives `⌈2.5⌉ = 3`. -/
theorem normalize_length_ceil_counterexample :
    ¬ ((normalize_traffic_shape [((3 : ℚ) / 200, 5)] (1 / 100)).map
        (fun l => (l.length : ℤ)) =
      some ⌈(events_max_time [((3 : ℚ) / 200, 5)] + 1 / 100) / (1 / 100)⌉) := by
  have hceil : (⌈(5 : ℚ) / 2⌉ : ℤ) = 3 := by
    rw [Int.ceil_eq_iff] <;> norm_num
  norm_num [normalize_traffic_shape, events_max_time, addEvent, binIndex, pyInt,
    List.foldlM]
  rw [hceil]
  norm_num

/-- C5 amended: for a non-empty event list with non-negative times and bin
width `ts > 0`, the shape length is the *truncation* `⌊(max_time + ts) / ts⌋`
(not the ceiling), each event's size is accumulated into bin
`int(time / ts) = ⌊time / ts⌋`, and bin `i` holds exactly the total size of
the events with that bin index. -/
theorem normalize_traffic_shape_spec (events : List Packet) (ts : ℚ)
    (hne : events ≠ []) (hts : 0 < ts) (hnn : ∀ e ∈ events, 0 ≤ e.1) :
    ∃ r, normalize_traffic_shape events ts = some r ∧
      (r.length : ℤ) = ⌊(events_max_time events + ts) / ts⌋ ∧
      (∀ e ∈ events, binIndex ts e = ⌊e.1 / ts⌋) ∧
      (∀ i : ℕ, r.getD i 0 =
        ((events.filter (fun e => binIndex ts e = (i : ℤ))).map Prod.snd).sum) := by
  obtain ⟨r, h1, h2, h3, -⟩ := normalize_traffic_shape_eval events ts hne hts hnn
  refine ⟨r, h1, h2, ?_, h3⟩
  intro e he
  exact pyInt_of_nonneg _ (div_nonneg (hnn e he) hts.le)

/-- Witness for the amended C5 at `events = [(0, 5)]`, `ts = 1`. -/
theorem normalize_traffic_shape_spec_witness :
    ∃ r, normalize_traffic_shape [((0 : ℚ), 5)] 1 = some r ∧
      (r.length : ℤ) = ⌊(events_max_time [((0 : ℚ), 5)] + 1) / 1⌋ ∧
      (∀ e ∈ [((0 : ℚ), 5)], binIndex 1 e = ⌊e.1 / 1⌋) ∧
      (∀ i : ℕ, r.getD i 0 =
        (([((0 : ℚ), 5)].filter (fun e => binIndex 1 e = (i : ℤ))).map
          Prod.snd).sum) :=
  normalize_traffic_shape_spec [((0 : ℚ), 5)] 1 (by simp) (by norm_num)
    (by intro e he; rw [List.mem_singleton] at he; simp [he])

/-! ### Identical traces and malformed input -/

lemma extract_events_ne_nil (traffic : List Packet) (te : ℚ) (h : traffic ≠ []) :
    extract_events traffic te ≠ [] := by
  obtain ⟨B, h1, h2, -, -, -⟩ := extract_events_partition traffic te
  rw [h1]
  intro hmap
  rw [List.map_eq_nil] at hmap
  rw [hmap] at h2
  exact h h2.symm

lemma extract_events_mem (traffic : List Packet) (te : ℚ) (e : Packet)
    (he : e ∈ extract_events traffic te) :
    ∃ b : List Packet, b ≠ [] ∧ (∀ p ∈ b, p ∈ traffic) ∧ e = aggregate_event b := by
  obtain ⟨B, h1, h2, h3, -, -⟩ := extract_events_partition traffic te
  rw [h1] at he
  obtain ⟨b, hbB, rfl⟩ := List.mem_map.1 he
  refine ⟨b, h3 b hbB, ?_, rfl⟩
  intro p hp
  rw [← h2]
  exact List.mem_flatten.2 ⟨b, hbB, hp⟩

/-- Events extracted from a trace with non-negative times and positive sizes
have non-negative times and positive sizes. -/
lemma extract_events_facts (traffic : List Packet) (te : ℚ)
    (hnn : ∀ p ∈ traffic, 0 ≤ p.1) (hpos : ∀ p ∈ traffic, 0 < p.2) :
    ∀ e ∈ extract_events traffic te, 0 ≤ e.1 ∧ 0 < e.2 := by
  intro e he
  obtain ⟨b, hbne, hsub, rfl⟩ := extract_events_mem traffic te e he
  constructor
  · have hm := hsub _ (getLastD_mem_of_ne_nil b ((0 : ℚ), (0 : ℚ)) hbne)
    have h0 : 0 ≤ (b.getLastD ((0 : ℚ), (0 : ℚ))).1 := hnn _ hm
    exact h0
  · refine List.sum_pos _ ?_ (by simpa using hbne)
    intro x hx
    obtain ⟨p, hp, rfl⟩ := List.mem_map.1 hx
    exact hpos p (hsub p hp)

/-- Correlating a non-empty event sequence against itself gives score `1`:
every channel event finds at least itself within the tolerances. -/
lemma event_correlation_self (E : List Packet) (hne : E ≠ []) :
    calculate_event_correlation E E DELTA GAMMA = some 1 := by
  obtain ⟨e0, es, rfl⟩ := List.exists_cons_of_ne_nil hne
  simp only [calculate_event_correlation]
  have hcount : (e0 :: es).countP (matchesPred (e0 :: es) DELTA GAMMA) =
      (e0 :: es).length := by
    rw [List.countP_eq_length]
    intro a ha
    simp only [matchesPred, List.any_eq_true, decide_eq_true_eq]
    exact ⟨a, ha, by norm_num [DELTA, GAMMA]⟩
  rw [hcount, div_self]
  exact Nat.cast_ne_zero.2 (by simp)

/-- Correlating a shape of non-zero total against itself gives score `1`. -/
lemma shape_correlation_self (sh : List ℚ) (hsum : sh.sum ≠ 0) :
    calculate_shape_correlation sh sh = some 1 := by
  have hx : ∃ x ∈ sh, x ≠ 0 := by
    by_contra hall
    push_neg at hall
    exact hsum (List.sum_eq_zero hall)
  obtain ⟨x, hxm, hxne⟩ := hx
  have hsq : (0 : ℚ) < x ^ 2 := by positivity
  have hle : x ^ 2 ≤ (sh.map (fun y => y ^ 2)).sum := by
    refine List.single_le_sum ?_ _ (List.mem_map.2 ⟨x, hxm, rfl⟩)
    intro y hy
    obtain ⟨z, -, rfl⟩ := List.mem_map.1 hy
    positivity
  have htake : sh.take (shape_n sh sh) = sh := by
    simp [shape_n]
  have hdeq : shape_den sh sh =
      (sh.map (fun y => y ^ 2)).sum + (sh.map (fun y => y ^ 2)).sum := by
    rw [shape_den, htake]
  have hden : shape_den sh sh ≠ 0 := by
    rw [hdeq]; intro h0; nlinarith
  have hS0 : (List.zipWith (fun a b => (a - b) ^ 2) sh sh).sum = 0 :=
    (sqdiff_sum_eq_zero_iff sh sh).2 rfl
  have hnumden : shape_num sh sh = shape_den sh sh := by
    have := shape_den_sub_num sh sh
    linarith
  rw [calculate_shape_correlation, if_neg hden, hnumden, div_self hden]

/-- C7: on identical non-empty valid traces (non-decreasing non-negative
timestamps, positive sizes) both correlation scores are `1` under the default
configuration and the verdict is `true`. -/
theorem identify_self_traces (T : List Packet) (hne : T ≠ [])
    (hsort : List.Chain' (fun p q : Packet => p.1 ≤ q.1) T)
    (hnn : ∀ p ∈ T, 0 ≤ p.1) (hpos : ∀ p ∈ T, 0 < p.2) :
    calculate_event_correlation (extract_events T TE) (extract_events T TE)
      DELTA GAMMA = some 1 ∧
    (∃ sh, normalize_traffic_shape (extract_events T TE) TS = some sh ∧
      calculate_shape_correlation sh sh = some 1) ∧
    identify_communicating_parties T T = some true := by
  have hEne := extract_events_ne_nil T TE hne
  have hfacts := extract_events_facts T TE hnn hpos
  have hec := event_correlation_self _ hEne
  have hTS : (0 : ℚ) < TS := by norm_num [TS]
  obtain ⟨sh, hsh, -, -, hsum⟩ := normalize_traffic_shape_eval
    (extract_events T TE) TS hEne hTS (fun e he => (hfacts e he).1)
  have hsumpos : 0 < sh.sum := by
    rw [hsum]
    refine List.sum_pos _ ?_ (by simpa using hEne)
    intro x hx
    obtain ⟨e, he, rfl⟩ := List.mem_map.1 hx
    exact (hfacts e he).2
  have hsc := shape_correlation_self sh hsumpos.ne'
  refine ⟨hec, ⟨sh, hsh, hsc⟩, ?_⟩
  unfold identify_communicating_parties
  dsimp only
  rw [hec]
  dsimp only
  rw [hsh]
  dsimp only
  rw [hsc]
  norm_num [ETA]

/-- Witness for C7 at the one-packet trace `[(0, 1)]`. -/
theorem identify_self_traces_witness :
    calculate_event_correlation (extract_events [((0 : ℚ), 1)] TE)
      (extract_events [((0 : ℚ), 1)] TE) DELTA GAMMA = some 1 ∧
    (∃ sh, normalize_traffic_shape (extract_events [((0 : ℚ), 1)] TE) TS = some sh ∧
      calculate_shape_correlation sh sh = some 1) ∧
    identify_communicating_parties [((0 : ℚ), 1)] [((0 : ℚ), 1)] = some true :=
  identify_self_traces [((0 : ℚ), 1)] (by simp)
    (List.chain'_singleton _)
    (by intro p hp; rw [List.mem_singleton] at hp; simp [hp])
    (by intro p hp; rw [List.mem_singleton] at hp; simp [hp])

/-- C6 (code evaluation): the source performs no input validation.  On the
malformed user trace `[(0.1, 5), (0, 5)]` (non-ascending timestamps) against
the channel `[(0, 100)]` the pipeline silently returns the verdict `false`
instead of surfacing a distinguished validation failure. -/
theorem identify_malformed_silent_false :
    identify_communicating_parties [((1 : ℚ) / 10, 5), (0, 5)] [((0 : ℚ), 100)] =
      some false := by
  norm_num [identify_communicating_parties, extract_events, extractAux,
    aggregate_event, calculate_event_correlation, matchesPred, List.countP,
    List.countP.go, normalize_traffic_shape, events_max_time, addEvent,
    binIndex, pyInt, List.foldlM, calculate_shape_correlation, shape_num,
    shape_den, shape_n, TE, TS, DELTA, GAMMA, ETA]

end Sniffer
